import Mathlib

/-!
# Verification of the digest schedule subsystem

Shallow embedding of the schedule next-occurrence calculator and the
digest cron dispatcher of the inbox-zero repository.  Timestamps are
modelled as natural numbers of milliseconds since the Unix epoch
(1970-01-01T00:00:00Z), matching the JavaScript `Date` value model.
-/

namespace InboxZero

/-- Milliseconds per UTC day. -/
def msPerDay : Nat := 86400000

/-- Milliseconds per hour. -/
def msPerHour : Nat := 3600000

/-- Milliseconds per minute. -/
def msPerMinute : Nat := 60000

/-- A digest schedule record, with the fields consumed by
`calculateNextScheduleDate` (see `createScheduleSchema` and the call sites
in `scripts/setup-next-occurrence.ts` and the settings actions):
`intervalDays` and `occurrences` are integers (the Zod schema rejects
non-positive values, but the calculator must tolerate them), `daysOfWeek`
is an optional 7-bit mask (bit 0 = Sunday … bit 6 = Saturday),
`timeOfDay` is a canonical time-of-day `Date` (milliseconds since epoch,
date component the placeholder 1970-01-01), `lastOccurrenceAt` an optional
timestamp. -/
structure Schedule where
  intervalDays : Int
  daysOfWeek : Option Nat
  timeOfDay : Nat
  occurrences : Int
  lastOccurrenceAt : Option Nat
  deriving Repr, DecidableEq

/-- Midnight UTC of the day containing timestamp `t`. -/
def startOfDayUTC (t : Nat) : Nat := t / msPerDay * msPerDay

/-- UTC weekday of timestamp `t`, encoded 0 = Sunday … 6 = Saturday.
The epoch day 1970-01-01 was a Thursday (weekday 4). -/
def dayOfWeekUTC (t : Nat) : Nat := (t / msPerDay + 4) % 7

/-- Replace the time-of-day of timestamp `t` by the canonical
time-of-day `tod` (its offset within its placeholder day), keeping the
UTC date of `t`. -/
def snapToTimeOfDay (t tod : Nat) : Nat := startOfDayUTC t + tod % msPerDay

/-- Roll candidate `c` forward by whole steps of `step` milliseconds
until it is strictly after `now` (the "ensure future" rule of the spec,
iterated until the strict-future invariant holds). -/
def rollForward (now step c : Nat) : Nat :=
  if now < c then c else c + step * ((now - c) / step + 1)

/-- Starting at timestamp `t`, the earliest timestamp `t + k` whole days
(`0 ≤ k ≤ 6`) whose UTC weekday bit is set in `mask`; `none` when no
weekday bit (bits 0–6) of `mask` is set. -/
def nextAllowedWeekday (mask t : Nat) : Option Nat :=
  ((List.range 7).find? fun k => mask.testBit (dayOfWeekUTC (t + k * msPerDay))).map
    fun k => t + k * msPerDay

/-- Modelled from the spec: the function `calculateNextScheduleDate` of
`utils/schedule.ts` is not part of this source tree (only its callers
are), so it is reconstructed here from the spec's contract for
`calculateNext(schedule) -> timestamp | null`:

* non-positive `intervalDays` is structurally invalid and yields `none`;
* otherwise, starting from `lastOccurrenceAt` advanced by `intervalDays`
  days (or from the current time when `lastOccurrenceAt` is absent), the
  time-of-day is snapped to the schedule's `timeOfDay` (hour/minute,
  UTC);
* if the naive candidate is not strictly in the future it is rolled
  forward by additional intervals until it is (the spec requires the
  output strictly after "now" at call time);
* if `daysOfWeek` is set and non-zero, the candidate advances further to
  the next date whose weekday bit is set in the mask.  The degenerate
  mask 0 is resolved, as the spec permits, by treating it as "every
  day" (mirroring the JavaScript truthiness convention visible in
  `readUserSchedules`, where `daysOfWeek = 0` falls into the
  "Every day" branch). -/
def calculateNext (now : Nat) (s : Schedule) : Option Nat :=
  if s.intervalDays ≤ 0 then none
  else
    let step := s.intervalDays.toNat * msPerDay
    let base :=
      match s.lastOccurrenceAt with
      | some t => t + step
      | none => now
    let naive := snapToTimeOfDay base s.timeOfDay
    let future := rollForward now step naive
    match s.daysOfWeek with
    | some m => if m = 0 then some future else nextAllowedWeekday m future
    | none => some future

/-! ## Canonical time-of-day (source: `createCanonicalTimeOfDay` in
`scripts/create-rameel-cst-schedules.ts` lines 39–43 and the identical
helper in the multiple-schedules script) -/

/-- UTC hour of a timestamp, as `Date.prototype.getUTCHours`. -/
def getUTCHours (t : Nat) : Nat := t / msPerHour % 24

/-- UTC minute of a timestamp, as `Date.prototype.getUTCMinutes`. -/
def getUTCMinutes (t : Nat) : Nat := t / msPerMinute % 60

/-- UTC second of a timestamp, as `Date.prototype.getUTCSeconds`. -/
def getUTCSeconds (t : Nat) : Nat := t / 1000 % 60

/-- UTC millisecond of a timestamp, as `Date.prototype.getUTCMilliseconds`. -/
def getUTCMilliseconds (t : Nat) : Nat := t % 1000

/-- Whole UTC days since the epoch (the date component of a timestamp:
`0` means the placeholder date 1970-01-01). -/
def utcDayNumber (t : Nat) : Nat := t / msPerDay

/-- `createCanonicalTimeOfDay(hour24, minute)` from the schedule scripts:
`new Date("1970-01-01T00:00:00Z")` is the timestamp `0`, and
`setUTCHours(hour24, minute, 0, 0)` sets the time components within that
day, i.e. produces `hour24` hours plus `minute` minutes of milliseconds. -/
def createCanonicalTimeOfDay (hour24 minute : Nat) : Nat :=
  hour24 * msPerHour + minute * msPerMinute

/-! ## Digest cron dispatcher (source:
`app/api/resend/digest/all/route.ts`, `sendDigestAllUpdate`) -/

/-- The premium record of a user, with the two fields the dispatcher's
eligibility filter reads. -/
structure Premium where
  lemonSqueezyRenewsAt : Option Nat
  stripeSubscriptionStatus : Option String
  deriving Repr, DecidableEq

/-- An email account row as included with each due schedule. -/
structure EmailAccount where
  id : String
  email : String
  createdAt : Nat
  premium : Option Premium
  deriving Repr, DecidableEq

/-- A schedule row returned by the due-schedules query, with its included
email account. -/
structure DueScheduleRow where
  nextOccurrenceAt : Nat
  emailAccount : EmailAccount
  deriving Repr, DecidableEq

/-- The eligibility filter of `sendDigestAllUpdate`: the user is premium
(a renewal date strictly after `now`, or a Stripe status of `active` or
`trialing`) and the email account was created more than one day before
`now` (`subDays(now, 1)`). -/
def isEligible (now : Nat) (row : DueScheduleRow) : Bool :=
  (match row.emailAccount.premium with
    | none => false
    | some p =>
      (match p.lemonSqueezyRenewsAt with
        | some renewsAt => now < renewsAt
        | none => false)
      || (match p.stripeSubscriptionStatus with
          | some st => st == "active" || st == "trialing"
          | none => false))
  && row.emailAccount.createdAt < now - msPerDay

/-- Insertion-ordered deduplication, as `new Set(xs)` iterated in JS:
each id is kept at its first occurrence. -/
def setDedup (xs : List String) : List String :=
  xs.foldl (fun acc x => if x ∈ acc then acc else acc ++ [x]) []

/-- `sendDigestAllUpdate` restricted to its pure dispatch logic: from the
rows whose `nextOccurrenceAt` is `≤ now` (the Prisma query filter), keep
eligible ones, collect the distinct email-account ids, and publish one
job (account id with its email) per distinct id, looking the email up on
the first eligible schedule of that account. -/
def sendDigestAllUpdate (now : Nat) (dueSchedules : List DueScheduleRow) :
    List (String × String) :=
  let dueRows := dueSchedules.filter fun row => row.nextOccurrenceAt ≤ now
  let eligibleSchedules := dueRows.filter (isEligible now)
  let emailAccountIds := setDedup (eligibleSchedules.map fun s => s.emailAccount.id)
  emailAccountIds.filterMap fun id =>
    (eligibleSchedules.find? fun s => s.emailAccount.id == id).map
      fun s => (id, s.emailAccount.email)

/-! ## Helper lemmas -/

theorem rollForward_gt (now c : Nat) {step : Nat} (hstep : 0 < step) :
    now < rollForward now step c := by
  unfold rollForward
  split
  · assumption
  · rename_i hnc
    have hc : c ≤ now := Nat.le_of_not_lt hnc
    have hmod := Nat.div_add_mod (now - c) step
    have hlt : (now - c) % step < step := Nat.mod_lt _ hstep
    have : step * ((now - c) / step + 1) = step * ((now - c) / step) + step :=
      by ring
    omega

theorem le_rollForward (now step c : Nat) : c ≤ rollForward now step c := by
  unfold rollForward
  split
  · exact Nat.le_refl c
  · exact Nat.le_add_right _ _

theorem lt_snap_add (last i tod : Nat) (hi : 0 < i) :
    last < snapToTimeOfDay (last + i * msPerDay) tod := by
  unfold snapToTimeOfDay startOfDayUTC msPerDay
  omega

theorem nextAllowedWeekday_some {mask c t : Nat}
    (h : nextAllowedWeekday mask c = some t) :
    c ≤ t ∧ mask.testBit (dayOfWeekUTC t) = true := by
  unfold nextAllowedWeekday at h
  cases hfind : (List.range 7).find? fun k =>
      mask.testBit (dayOfWeekUTC (c + k * msPerDay)) with
  | none => rw [hfind] at h; simp at h
  | some k =>
      rw [hfind] at h
      simp only [Option.map_some'] at h
      have hp := List.find?_some hfind
      have ht : c + k * msPerDay = t := Option.some.inj h
      subst ht
      exact ⟨Nat.le_add_right _ _, hp⟩

/-! ## Claim theorems -/

/-- C1: for every structurally valid schedule (positive `intervalDays`),
a timestamp returned by `calculateNext` is strictly after "now" at call
time, and strictly after `lastOccurrenceAt` when the latter is non-null;
whenever naive advancement lands in the past the candidate is rolled
forward by whole intervals, so the strict-future postcondition holds. -/
theorem calculateNext_strictly_future (now : Nat) (s : Schedule) (t : Nat)
    (hpos : 0 < s.intervalDays) (ht : calculateNext now s = some t) :
    now < t ∧ ∀ last, s.lastOccurrenceAt = some last → last < t := by
  obtain ⟨i, dow, tod, occ, last⟩ := s
  simp only at hpos
  have hne : ¬ (i ≤ 0) := by omega
  have hitn : 0 < i.toNat := by omega
  have hstep : 0 < i.toNat * msPerDay := by
    have : 0 < msPerDay := by unfold msPerDay; omega
    exact Nat.mul_pos hitn this
  simp only [calculateNext, if_neg hne] at ht
  cases last with
  | none =>
      cases dow with
      | none =>
          have htt := Option.some.inj ht
          subst htt
          refine ⟨rollForward_gt now _ hstep, ?_⟩
          intro l hl; exact absurd hl (by simp)
      | some m =>
          by_cases hm : m = 0
          · subst hm
            simp only [if_pos rfl] at ht
            have htt := Option.some.inj ht
            subst htt
            refine ⟨rollForward_gt now _ hstep, ?_⟩
            intro l hl; exact absurd hl (by simp)
          · simp only [if_neg hm] at ht
            obtain ⟨hle, _⟩ := nextAllowedWeekday_some ht
            refine ⟨Nat.lt_of_lt_of_le (rollForward_gt now _ hstep) hle, ?_⟩
            intro l hl; exact absurd hl (by simp)
  | some l =>
      have hlast : l < snapToTimeOfDay (l + i.toNat * msPerDay) tod :=
        lt_snap_add l i.toNat tod hitn
      cases dow with
      | none =>
          have htt := Option.some.inj ht
          subst htt
          refine ⟨rollForward_gt now _ hstep, ?_⟩
          intro l' hl'
          cases Option.some.inj hl'
          exact Nat.lt_of_lt_of_le hlast (le_rollForward now _ _)
      | some m =>
          by_cases hm : m = 0
          · subst hm
            simp only [if_pos rfl] at ht
            have htt := Option.some.inj ht
            subst htt
            refine ⟨rollForward_gt now _ hstep, ?_⟩
            intro l' hl'
            cases Option.some.inj hl'
            exact Nat.lt_of_lt_of_le hlast (le_rollForward now _ _)
          · simp only [if_neg hm] at ht
            obtain ⟨hle, _⟩ := nextAllowedWeekday_some ht
            refine ⟨Nat.lt_of_lt_of_le (rollForward_gt now _ hstep) hle, ?_⟩
            intro l' hl'
            cases Option.some.inj hl'
            exact Nat.lt_of_lt_of_le hlast
              (Nat.le_trans (le_rollForward now _ _) hle)

/-- Witness for C1: for the daily 09:00 UTC schedule last fired at
day 100 09:00, evaluated at day 100 10:00, the computed next occurrence
is strictly after both "now" and the last occurrence. -/
theorem calculateNext_strictly_future_witness :
    0 < (Schedule.mk 1 none (9 * msPerHour) 1
          (some (100 * msPerDay + 9 * msPerHour))).intervalDays ∧
    calculateNext (100 * msPerDay + 10 * msPerHour)
        (Schedule.mk 1 none (9 * msPerHour) 1
          (some (100 * msPerDay + 9 * msPerHour))) =
      some (101 * msPerDay + 9 * msPerHour) ∧
    (100 * msPerDay + 10 * msPerHour < 101 * msPerDay + 9 * msPerHour ∧
      ∀ last,
        (Schedule.mk 1 none (9 * msPerHour) 1
          (some (100 * msPerDay + 9 * msPerHour))).lastOccurrenceAt =
            some last →
        last < 101 * msPerDay + 9 * msPerHour) :=
  ⟨by decide, by decide,
    calculateNext_strictly_future _ _ _ (by decide) (by decide)⟩

/-- C2: when the `daysOfWeek` mask is non-null and has at least one bit
set, every timestamp returned by `calculateNext` falls on a UTC weekday
whose bit is set in the mask (bit 0 = Sunday … bit 6 = Saturday); in
particular, for the mask `0b0000010` (only Monday) the result always
falls on a Monday (weekday 1). -/
theorem calculateNext_allowed_weekday (now : Nat) (s : Schedule)
    (m t : Nat) (hdow : s.daysOfWeek = some m) (hm : 0 < m)
    (ht : calculateNext now s = some t) :
    m.testBit (dayOfWeekUTC t) = true ∧ (m = 2 → dayOfWeekUTC t = 1) := by
  obtain ⟨i, dow, tod, occ, last⟩ := s
  simp only at hdow
  subst hdow
  by_cases hne : i ≤ 0
  · simp [calculateNext, hne] at ht
  · have hm0 : ¬ (m = 0) := by omega
    simp only [calculateNext, if_neg hne, if_neg hm0] at ht
    have hbit : m.testBit (dayOfWeekUTC t) = true :=
      (nextAllowedWeekday_some ht).2
    refine ⟨hbit, ?_⟩
    intro hm2
    subst hm2
    have hlt : dayOfWeekUTC t < 7 := Nat.mod_lt _ (by omega)
    interval_cases h : dayOfWeekUTC t <;> revert hbit <;> decide

/-- Witness for C2: schedule with interval 1 day, mask `0b0000010`
(Monday only), time-of-day 09:00 UTC, no last occurrence, evaluated at
the epoch (1970-01-01, a Thursday): the result lands on the following
Monday (weekday 1), whose bit is set in the mask. -/
theorem calculateNext_allowed_weekday_witness :
    (Schedule.mk 1 (some 2) (9 * msPerHour) 1 none).daysOfWeek = some 2 ∧
    0 < 2 ∧
    calculateNext 0 (Schedule.mk 1 (some 2) (9 * msPerHour) 1 none) =
      some (4 * msPerDay + 9 * msPerHour) ∧
    (Nat.testBit 2 (dayOfWeekUTC (4 * msPerDay + 9 * msPerHour)) = true ∧
      (2 = 2 → dayOfWeekUTC (4 * msPerDay + 9 * msPerHour) = 1)) :=
  ⟨by decide, by decide, by decide,
    calculateNext_allowed_weekday 0
      (Schedule.mk 1 (some 2) (9 * msPerHour) 1 none) 2
      (4 * msPerDay + 9 * msPerHour) (by decide) (by decide) (by decide)⟩

/-- C3: a record with non-positive `intervalDays` yields `none` (no
timestamp and, the embedding being a total function, no exception). -/
theorem calculateNext_nonpositive_interval (now : Nat) (s : Schedule)
    (h : s.intervalDays ≤ 0) : calculateNext now s = none := by
  simp [calculateNext, h]

/-- Witness for C3: `intervalDays = 0` yields `none`. -/
theorem calculateNext_nonpositive_interval_witness :
    (Schedule.mk 0 none 0 1 none).intervalDays ≤ 0 ∧
    calculateNext 12345 (Schedule.mk 0 none 0 1 none) = none :=
  ⟨by decide, calculateNext_nonpositive_interval 12345 _ (by decide)⟩

/-- C4: `calculateNext` is total: on every input record, including
invalid or degenerate configurations, it terminates (it is a Lean
function) and its value is either `none` or some timestamp — there is no
exceptional outcome. -/
theorem calculateNext_total (now : Nat) (s : Schedule) :
    calculateNext now s = none ∨ ∃ t, calculateNext now s = some t := by
  cases h : calculateNext now s with
  | none => exact Or.inl rfl
  | some t => exact Or.inr ⟨t, rfl⟩

/-- C5: for `intervalDays = 1`, `daysOfWeek = null`,
`timeOfDay = 09:00 UTC`, `occurrences = 1`, `lastOccurrenceAt = null`,
the result is today at 09:00 UTC when the current time is before
09:00 UTC, and tomorrow at 09:00 UTC otherwise. -/
theorem calculateNext_daily_nine_am (now : Nat) :
    calculateNext now
        (Schedule.mk 1 none (createCanonicalTimeOfDay 9 0) 1 none) =
      some (if now < startOfDayUTC now + 9 * msPerHour
            then startOfDayUTC now + 9 * msPerHour
            else startOfDayUTC now + 9 * msPerHour + msPerDay) := by
  simp only [calculateNext, createCanonicalTimeOfDay, snapToTimeOfDay,
    rollForward, startOfDayUTC, msPerDay, msPerHour, msPerMinute]
  norm_num [Option.some.injEq]
  split_ifs <;> omega

/-- C7: `calculateNext` is deterministic and side-effect free: two calls
on records with identical field values and the same ambient "now" return
equal results (the embedding is a pure function, so no state is
modified). -/
theorem calculateNext_deterministic (now : Nat) (s₁ s₂ : Schedule)
    (h1 : s₁.intervalDays = s₂.intervalDays)
    (h2 : s₁.daysOfWeek = s₂.daysOfWeek)
    (h3 : s₁.timeOfDay = s₂.timeOfDay)
    (h4 : s₁.occurrences = s₂.occurrences)
    (h5 : s₁.lastOccurrenceAt = s₂.lastOccurrenceAt) :
    calculateNext now s₁ = calculateNext now s₂ := by
  have hs : s₁ = s₂ := by
    cases s₁; cases s₂; simp_all
  rw [hs]

/-- Witness for C7: two records built from the same field values give the
same result. -/
theorem calculateNext_deterministic_witness :
    calculateNext 98765 (Schedule.mk 3 (some 5) (7 * msPerHour) 1 (some 42)) =
      calculateNext 98765
        (Schedule.mk 3 (some 5) (7 * msPerHour) 1 (some 42)) :=
  calculateNext_deterministic 98765 _ _ rfl rfl rfl rfl rfl

/-- C8: the degenerate mask `daysOfWeek = 0` is resolved by treating it
as "every day": the result equals the result for the identical schedule
with `daysOfWeek = null` (one of the two resolutions the spec
permits). -/
theorem calculateNext_zero_mask_every_day (now : Nat) (i : Int)
    (tod : Nat) (occ : Int) (last : Option Nat) :
    calculateNext now (Schedule.mk i (some 0) tod occ last) =
      calculateNext now (Schedule.mk i none tod occ last) := by
  simp [calculateNext]

/-- C6 counterexample: for the weekly schedule (interval 7, mask null,
time-of-day 09:00 UTC) last fired on day 0 at 09:00, evaluated with
"now" at day 100, the result is NOT `lastOccurrenceAt` plus exactly
7 days: the naive candidate day 7 09:00 lies in the past, so the
strict-future rule rolls it forward (to day 105 at 09:00). -/
theorem calculateNext_weekly_not_exact :
    calculateNext (100 * msPerDay)
        (Schedule.mk 7 none (9 * msPerHour) 1 (some (9 * msPerHour))) =
      some (105 * msPerDay + 9 * msPerHour) ∧
    ¬ (calculateNext (100 * msPerDay)
          (Schedule.mk 7 none (9 * msPerHour) 1 (some (9 * msPerHour))) =
        some (9 * msPerHour + 7 * msPerDay)) := by
  constructor
  · decide
  · decide

/-- C6 amended: for a schedule with `intervalDays = 7` and
`daysOfWeek = null` whose non-null `lastOccurrenceAt` falls at the
schedule's own time-of-day, and whose naive advancement
`lastOccurrenceAt + 7 days` is still strictly in the future, the result
is exactly 7 days after `lastOccurrenceAt`, time-of-day preserved. -/
theorem calculateNext_weekly_exact (now tod : Nat) (occ : Int) (last : Nat)
    (hlast : last % msPerDay = tod)
    (hfut : now < last + 7 * msPerDay) :
    calculateNext now (Schedule.mk 7 none tod occ (some last)) =
      some (last + 7 * msPerDay) := by
  simp only [calculateNext, snapToTimeOfDay, startOfDayUTC, rollForward,
    msPerDay] at *
  norm_num [Option.some.injEq]
  split_ifs <;> omega

/-- Witness for C6 amended: last fired day 100 at 09:00, "now" day 101:
the next occurrence is day 107 at 09:00, exactly 7 days later. -/
theorem calculateNext_weekly_exact_witness :
    (100 * msPerDay + 9 * msPerHour) % msPerDay = 9 * msPerHour ∧
    101 * msPerDay < 100 * msPerDay + 9 * msPerHour + 7 * msPerDay ∧
    calculateNext (101 * msPerDay)
        (Schedule.mk 7 none (9 * msPerHour) 1
          (some (100 * msPerDay + 9 * msPerHour))) =
      some (100 * msPerDay + 9 * msPerHour + 7 * msPerDay) :=
  ⟨by decide, by decide,
    calculateNext_weekly_exact (101 * msPerDay) (9 * msPerHour) 1
      (100 * msPerDay + 9 * msPerHour) (by decide) (by decide)⟩

/-- C9: for every `hour24 < 24` and `minute < 60`,
`createCanonicalTimeOfDay(hour24, minute)` has the epoch placeholder
date 1970-01-01 (UTC day number 0), UTC hour `hour24`, UTC minute
`minute`, and zero seconds and milliseconds. -/
theorem createCanonicalTimeOfDay_spec (hour24 minute : Nat)
    (hh : hour24 < 24) (hm : minute < 60) :
    utcDayNumber (createCanonicalTimeOfDay hour24 minute) = 0 ∧
    getUTCHours (createCanonicalTimeOfDay hour24 minute) = hour24 ∧
    getUTCMinutes (createCanonicalTimeOfDay hour24 minute) = minute ∧
    getUTCSeconds (createCanonicalTimeOfDay hour24 minute) = 0 ∧
    getUTCMilliseconds (createCanonicalTimeOfDay hour24 minute) = 0 := by
  unfold utcDayNumber getUTCHours getUTCMinutes getUTCSeconds
    getUTCMilliseconds createCanonicalTimeOfDay msPerDay msPerHour msPerMinute
  omega

/-- Witness for C9: 09:30 UTC. -/
theorem createCanonicalTimeOfDay_spec_witness :
    9 < 24 ∧ 30 < 60 ∧
    (utcDayNumber (createCanonicalTimeOfDay 9 30) = 0 ∧
      getUTCHours (createCanonicalTimeOfDay 9 30) = 9 ∧
      getUTCMinutes (createCanonicalTimeOfDay 9 30) = 30 ∧
      getUTCSeconds (createCanonicalTimeOfDay 9 30) = 0 ∧
      getUTCMilliseconds (createCanonicalTimeOfDay 9 30) = 0) :=
  ⟨by decide, by decide,
    createCanonicalTimeOfDay_spec 9 30 (by decide) (by decide)⟩

/-! ## Dispatcher lemmas -/

theorem foldl_insertUnique_nodup (xs : List String) :
    ∀ acc : List String, acc.Nodup →
      (xs.foldl (fun acc x => if x ∈ acc then acc else acc ++ [x]) acc).Nodup := by
  induction xs with
  | nil => intro acc h; exact h
  | cons x xs ih =>
      intro acc hacc
      simp only [List.foldl_cons]
      by_cases hmem : x ∈ acc
      · rw [if_pos hmem]; exact ih acc hacc
      · rw [if_neg hmem]
        refine ih _ ?_
        simp [List.nodup_append, hacc, hmem]

theorem setDedup_nodup (xs : List String) : (setDedup xs).Nodup :=
  foldl_insertUnique_nodup xs [] List.nodup_nil

theorem nodup_fst_filterMap (f : String → Option (String × String))
    (hf : ∀ id p, f id = some p → p.1 = id) :
    ∀ ids : List String, ids.Nodup →
      ((ids.filterMap f).map Prod.fst).Nodup := by
  intro ids
  induction ids with
  | nil => intro _; simp
  | cons id rest ih =>
      intro hnd
      obtain ⟨hnotin, hrest⟩ := List.nodup_cons.mp hnd
      simp only [List.filterMap_cons]
      cases hfi : f id with
      | none => exact ih hrest
      | some p =>
          have hp : p.1 = id := hf id p hfi
          simp only [List.map_cons]
          refine List.nodup_cons.mpr ⟨?_, ih hrest⟩
          intro hmemP
          rw [List.mem_map] at hmemP
          obtain ⟨q, hq, hq1⟩ := hmemP
          rw [List.mem_filterMap] at hq
          obtain ⟨idq, hidq, hfq⟩ := hq
          have hq2 : q.1 = idq := hf idq q hfq
          have : idq = id := by rw [← hq2, hq1, hp]
          subst this
          exact hnotin hidq

/-- C10: in every run of the digest cron dispatcher
`sendDigestAllUpdate`, at most one digest job is published per email
account — the published account ids have no duplicates — even when an
account has several schedules with `nextOccurrenceAt ≤ now`, because due
eligible schedules are deduplicated by `emailAccount.id` before the
publish loop. -/
theorem sendDigestAllUpdate_one_per_account (now : Nat)
    (dueSchedules : List DueScheduleRow) :
    ((sendDigestAllUpdate now dueSchedules).map Prod.fst).Nodup := by
  unfold sendDigestAllUpdate
  apply nodup_fst_filterMap
  · intro id p hp
    rw [Option.map_eq_some'] at hp
    obtain ⟨s, _, hps⟩ := hp
    rw [← hps]
  · exact setDedup_nodup _

end InboxZero
